import Mathlib

/-!
Verification of the algorithmic core of the interactive square finder
(src/src/App.jsx): pair enumeration, square detection by 90-degree edge
rotation, square-key normalization, and the step/rewind tracker around a
registry of unique square keys.

JS strings are modelled as lists of characters (Str); JS Set of strings as
Finset Str; JS numbers (all integer-valued here) as Int for coordinates and
Nat for indices.  Fallible operations of the source (indexing pairs[k] out
of range, modulo by zero) are modelled with Option.
-/

namespace SquareFinder

/-- Characters of a JS string; strings are modelled as lists of characters. -/
abbrev Str : Type := List Char

/-- Decimal digit characters of a positive natural number, most significant
first, written with explicit fuel so that it is structurally recursive; the
first argument is the fuel.  With fuel at least m this agrees with the usual
base-10 expansion (see charsVal_natCharsGo). -/
def natCharsGo : Nat → Nat → List Char
  | _, 0 => []
  | 0, _ + 1 => []
  | fuel + 1, m + 1 => natCharsGo fuel ((m + 1) / 10) ++ [Nat.digitChar ((m + 1) % 10)]

/-- Decimal representation of a natural number, as produced by JS
Number.prototype.toString for a nonnegative integer. -/
def natChars (n : Nat) : Str := if n = 0 then ['0'] else natCharsGo n n

/-- Decimal representation of an integer, as produced by JS
Number.prototype.toString: a minus sign followed by the digits when
negative. -/
def intChars : Int → Str
  | Int.ofNat n => natChars n
  | Int.negSucc n => '-' :: natChars (n + 1)

/-- Decoder for decimal digit strings, used to prove that the encoders are
injective: left fold accumulating digit values. -/
def charsVal (cs : List Char) : Nat := cs.foldl (fun a c => a * 10 + (c.toNat - 48)) 0

/-- Key of a coordinate pair: the string "x,y".  Helper factoring keyOf
through the geometric coordinates. -/
def coordKey (c : Int × Int) : Str := intChars c.1 ++ ',' :: intChars c.2

/-- Point of the source: integer coordinates plus a display label.  The label
takes no part in geometry (keyOf ignores it). -/
structure Pt where
  x : Int
  y : Int
  id : String
deriving DecidableEq

/-- Coordinates of a point; geometric identity of points is by coordinates. -/
def ptCoords (p : Pt) : Int × Int := (p.x, p.y)

/-- Source helper keyOf: the template string x,y built from the two
coordinates. -/
def keyOf (p : Pt) : Str := intChars p.x ++ ',' :: intChars p.y

/-- Comparison of strings as JS Array.prototype.sort compares them: true when
the first is lexicographically at most the second (code-unit order; all
characters here are ASCII). -/
def strLeB : Str → Str → Bool
  | [], _ => true
  | _ :: _, [] => false
  | a :: as, b :: bs => if a < b then true else if b < a then false else strLeB as bs

/-- Propositional form of the string comparison. -/
def strLe (a b : Str) : Prop := strLeB a b = true

instance : DecidableRel strLe := fun a b => inferInstanceAs (Decidable (strLeB a b = true))

instance : IsTotal Str strLe := by
  constructor
  intro a
  induction a with
  | nil => intro b; left; rfl
  | cons x xs ih =>
    intro b
    cases b with
    | nil => right; rfl
    | cons y ys =>
      rcases lt_trichotomy x y with h | h | h
      · left; simp [strLe, strLeB, h]
      · subst h
        rcases ih ys with h2 | h2
        · left; simpa [strLe, strLeB, lt_irrefl] using h2
        · right; simpa [strLe, strLeB, lt_irrefl] using h2
      · right; simp [strLe, strLeB, h]

instance : IsTrans Str strLe := by
  constructor
  intro a
  induction a with
  | nil => intro b c _ _; rfl
  | cons x xs ih =>
    intro b c hab hbc
    cases b with
    | nil => simp [strLe, strLeB] at hab
    | cons y ys =>
      cases c with
      | nil => simp [strLe, strLeB] at hbc
      | cons z zs =>
        simp only [strLe, strLeB] at hab hbc ⊢
        rcases lt_trichotomy x y with h1 | h1 | h1
        · rcases lt_trichotomy y z with h2 | h2 | h2
          · rw [if_pos (lt_trans h1 h2)]
          · subst h2; rw [if_pos h1]
          · rw [if_neg (asymm h2), if_pos h2] at hbc; simp at hbc
        · subst h1
          rcases lt_trichotomy x z with h2 | h2 | h2
          · rw [if_pos h2]
          · subst h2
            rw [if_neg (lt_irrefl x), if_neg (lt_irrefl x)] at hab hbc ⊢
            exact ih ys zs hab hbc
          · rw [if_neg (asymm h2), if_pos h2] at hbc; simp at hbc
        · rw [if_neg (asymm h1), if_pos h1] at hab; simp at hab

instance : IsAntisymm Str strLe := by
  constructor
  intro a
  induction a with
  | nil =>
    intro b _ hba
    cases b with
    | nil => rfl
    | cons y ys => simp [strLe, strLeB] at hba
  | cons x xs ih =>
    intro b hab hba
    cases b with
    | nil => simp [strLe, strLeB] at hab
    | cons y ys =>
      simp only [strLe, strLeB] at hab hba
      rcases lt_trichotomy x y with h | h | h
      · rw [if_neg (asymm h), if_pos h] at hba; simp at hba
      · subst h
        rw [if_neg (lt_irrefl x), if_neg (lt_irrefl x)] at hab hba
        exact congrArg (x :: ·) (ih ys hab hba)
      · rw [if_neg (asymm h), if_pos h] at hab; simp at hab

/-- Model of the JS default Array.prototype.sort on strings: the unique
arrangement of the list that is sorted for the code-unit order (insertion
sort realizes it; any correct comparison sort returns the same list since
equal keys are identical strings). -/
def sortStrings (l : List Str) : List Str := List.insertionSort strLe l

/-- Model of Array.prototype.join with a separator string. -/
def joinSep (sep : Str) : List Str → Str
  | [] => []
  | [s] => s
  | s :: rest => s ++ sep ++ joinSep sep rest

/-- Source helper normalizeSquareKey: map the corners to their keys, sort,
and join with a vertical bar. -/
def normalizeSquareKey (l : List Pt) : Str := joinSep ['|'] (sortStrings (l.map keyOf))

/-- Rotation of an edge vector by plus 90 degrees. -/
def rotLeft (dx dy : Int) : Int × Int := (-dy, dx)

/-- Rotation of an edge vector by minus 90 degrees. -/
def rotRight (dx dy : Int) : Int × Int := (dy, -dx)

/-- Index pair into the point sequence. -/
structure Pair where
  i : Nat
  j : Nat
deriving DecidableEq

/-- Result record of one step, mirroring the StepInfo type of the source. -/
structure StepInfo where
  pair : Pair
  A : Pt
  B : Pt
  dx : Int
  dy : Int
  ldx : Int
  ldy : Int
  rdx : Int
  rdy : Int
  C : Pt
  D : Pt
  C2 : Pt
  D2 : Pt
  leftOK : Bool
  rightOK : Bool
  newlyAddedSquares : List Str
  uniqueCount : Nat

/-- Pair list of the source: for i from 0 to n-1, for j from i+1 to n-1,
push the pair (i, j). -/
def pairs (points : List Pt) : List Pair :=
  (List.range points.length).flatMap
    (fun i => (List.range' (i + 1) (points.length - (i + 1))).map (fun j => ⟨i, j⟩))

/-- Membership set of the source: the set of coordinate keys of all points. -/
def membership (points : List Pt) : Finset Str := (points.map keyOf).toFinset

/-- Default point used to model JS array indexing; the theorems only concern
indices produced by the pair list, which are always in range. -/
def dfltPt : Pt := ⟨0, 0, ""⟩

/-- Insertion of one confirmed square key into the carry set with its newly
added list, as the source does for each of the two rotation checks: when the
check succeeded and the key is absent, add it and record it. -/
def addKey (carry : Finset Str) (newly : List Str) (key : Str) (ok : Bool) :
    Finset Str × List Str :=
  if ok then
    (if key ∈ carry then (carry, newly) else (insert key carry, newly ++ [key]))
  else (carry, newly)

/-- Single evaluation of a step without the rewind branch: source lines 75 to
104 together with the result record of lines 115 to 125.  Returns the
StepInfo and the updated carry set; the uniqueCount field is the size of the
updated carry. -/
def computeStepNoRewind (points : List Pt) (mem : Finset Str) (k : Nat)
    (carrySquares : Finset Str) : StepInfo × Finset Str :=
  let p := (pairs points).getD k ⟨0, 0⟩
  let A := points.getD p.i dfltPt
  let B := points.getD p.j dfltPt
  let dx := B.x - A.x
  let dy := B.y - A.y
  let L := rotLeft dx dy
  let R := rotRight dx dy
  let C : Pt := ⟨A.x + L.1, A.y + L.2, "C"⟩
  let D : Pt := ⟨B.x + L.1, B.y + L.2, "D"⟩
  let C2 : Pt := ⟨A.x + R.1, A.y + R.2, "C2"⟩
  let D2 : Pt := ⟨B.x + R.1, B.y + R.2, "D2"⟩
  let leftOK := decide (keyOf C ∈ mem) && decide (keyOf D ∈ mem)
  let rightOK := decide (keyOf C2 ∈ mem) && decide (keyOf D2 ∈ mem)
  let k1 := normalizeSquareKey [A, B, C, D]
  let k2 := normalizeSquareKey [A, B, C2, D2]
  let s1 := addKey carrySquares [] k1 leftOK
  let s2 := addKey s1.1 s1.2 k2 rightOK
  (⟨p, A, B, dx, dy, L.1, L.2, R.1, R.2, C, D, C2, D2, leftOK, rightOK, s2.2, s2.1.card⟩,
    s2.1)

/-- Registry rebuilt from scratch by replaying steps 0..k, source lines 107
to 113.  In the source each replayed step calls computeStepOnce, that is
computeStep with an empty set and alreadySeenIndex -1, which never enters the
rewind branch (theorem computeStepOnce_never_rebuilds); the rebuild is
therefore written with the rewind-free step evaluation. -/
def rebuildUpTo (points : List Pt) (mem : Finset Str) (k : Nat) : Finset Str :=
  (List.range (k + 1)).foldl
    (fun acc t => acc ∪ (computeStepNoRewind points mem t ∅).1.newlyAddedSquares.toFinset) ∅

/-- Source computeStep: evaluate the pair at step k against the carry set,
then, when k is at or below the already seen index, discard the carry and
rebuild it by replaying steps 0..k; uniqueCount is the size of the final
set.  The membership set, captured from the enclosing component in the
source, is passed explicitly. -/
def computeStep (points : List Pt) (mem : Finset Str) (k : Nat)
    (carrySquares : Finset Str) (alreadySeenIndex : Int) : StepInfo × Finset Str :=
  let r := computeStepNoRewind points mem k carrySquares
  if (k : Int) ≤ alreadySeenIndex then
    let rebuilt := rebuildUpTo points mem k
    ({ r.1 with uniqueCount := rebuilt.card }, rebuilt)
  else r

/-- Source computeStepOnce: computeStep on a fresh empty set with
alreadySeenIndex -1. -/
def computeStepOnce (points : List Pt) (mem : Finset Str) (k : Nat) :
    StepInfo × Finset Str :=
  computeStep points mem k ∅ (-1)

/-- Keys confirmed at step k: the square keys the detector finds there,
independent of any carried registry (obtained by evaluating the step against
an empty registry). -/
def confirmedKeys (points : List Pt) (mem : Finset Str) (k : Nat) : Finset Str :=
  (computeStepNoRewind points mem k ∅).1.newlyAddedSquares.toFinset

/-- Registry of a pure forward run before step k: steps 0..k-1 evaluated in
order into an initially empty registry, each with the already seen index the
forward run has at that moment (one less than the step). -/
def forwardState (points : List Pt) (mem : Finset Str) : Nat → Finset Str
  | 0 => ∅
  | k + 1 => (computeStep points mem k (forwardState points mem k) ((k : Int) - 1)).2

/-- The uniqueCount a pure forward run reports at step k. -/
def forwardCount (points : List Pt) (mem : Finset Str) (k : Nat) : Nat :=
  (computeStep points mem k (forwardState points mem k) ((k : Int) - 1)).1.uniqueCount

/-- Component state of the source: playback flag, speed, step index, and the
two tracker refs (registry of unique square keys and high-water mark). -/
structure AppState where
  playing : Bool
  speed : Nat
  step : Nat
  uniqueSquares : Finset Str
  seenUpTo : Int

/-- Initial component state of the source. -/
def initialState : AppState := ⟨false, 900, 0, ∅, -1⟩

/-- Source computeStep with its partiality made explicit: pairs[k] is
undefined when k is out of range, and destructuring it throws a TypeError;
this is modelled as none. -/
def computeStepChecked (points : List Pt) (mem : Finset Str) (k : Nat)
    (carrySquares : Finset Str) (alreadySeenIndex : Int) :
    Option (StepInfo × Finset Str) :=
  if k < (pairs points).length then
    some (computeStep points mem k carrySquares alreadySeenIndex)
  else none

/-- Source nextStep: apply computeStep to the canonical set, raise the
high-water mark, and advance the step cyclically.  With an empty pair list
the source throws while destructuring pairs[step]; modelled as none. -/
def nextStep (points : List Pt) (st : AppState) : Option AppState :=
  match computeStepChecked points (membership points) st.step st.uniqueSquares st.seenUpTo with
  | none => none
  | some r =>
      some { st with
        uniqueSquares := r.2,
        seenUpTo := max st.seenUpTo (st.step : Int),
        step := (st.step + 1) % (pairs points).length }

/-- Source prevStep: step back cyclically.  With an empty pair list the JS
expression (s - 1 + 0) % 0 is NaN; modelled as none. -/
def prevStep (points : List Pt) (st : AppState) : Option AppState :=
  if (pairs points).length = 0 then none
  else
    some { st with
      step := (((st.step : Int) - 1 + (pairs points).length) % ((pairs points).length : Int)).toNat }

/-- Source reset: stop playback, go to step 0, clear the registry, and set
the high-water mark to -1. -/
def reset (st : AppState) : AppState :=
  { st with playing := false, step := 0, uniqueSquares := ∅, seenUpTo := -1 }

/-- Lexicographic strict order on index pairs, the order in which the source
enumerates them. -/
def pairLexLt (p q : Pair) : Prop := p.i < q.i ∨ (p.i = q.i ∧ p.j < q.j)

/-- Point list with the same coordinate duplicated, the degenerate scenario
of the specification. -/
def dupPoints : List Pt := [⟨1, 1, "a"⟩, ⟨1, 1, "b"⟩]

/-- Four points forming one axis-aligned square of side 2, the concrete
scenario of the specification. -/
def unitSquarePts : List Pt := [⟨1, 1, "P0"⟩, ⟨3, 1, "P1"⟩, ⟨3, 3, "P2"⟩, ⟨1, 3, "P3"⟩]

/-- Translation of a lattice point by a vector. -/
def vadd (p v : Int × Int) : Int × Int := (p.1 + v.1, p.2 + v.2)

/-- Modelled from the spec: a finite set of lattice points is a square when
it consists of two distinct adjacent corners p, q together with the two
corners obtained by rotating the edge from p to q by plus 90 degrees.  This
is the mathematical notion the specification compares the final unique count
against; it is not part of the source code. -/
def IsSquare (s : Finset (Int × Int)) : Prop :=
  ∃ p ∈ s, ∃ q ∈ s, p ≠ q ∧
    s = {p, q, vadd q (rotLeft (q.1 - p.1) (q.2 - p.2)),
         vadd p (rotLeft (q.1 - p.1) (q.2 - p.2))}

instance (s : Finset (Int × Int)) : Decidable (IsSquare s) :=
  inferInstanceAs (Decidable (∃ p ∈ s, ∃ q ∈ s, p ≠ q ∧
    s = {p, q, vadd q (rotLeft (q.1 - p.1) (q.2 - p.2)),
         vadd p (rotLeft (q.1 - p.1) (q.2 - p.2))}))

/-- Set of coordinates of a point list. -/
def coordsFinset (points : List Pt) : Finset (Int × Int) := (points.map ptCoords).toFinset

/-- Modelled from the spec: the total number of distinct squares whose four
corners all lie in the point set. -/
def trueSquareCount (points : List Pt) : Nat :=
  ((coordsFinset points).powerset.filter IsSquare).card

theorem digitChar_toNat (r : Nat) (h : r < 10) : (Nat.digitChar r).toNat = 48 + r := by
  interval_cases r <;> rfl

theorem charsVal_append_singleton (xs : List Char) (c : Char) :
    charsVal (xs ++ [c]) = charsVal xs * 10 + (c.toNat - 48) := by
  simp [charsVal, List.foldl_append]

theorem charsVal_natCharsGo : ∀ (fuel m : Nat), m ≤ fuel → charsVal (natCharsGo fuel m) = m := by
  intro fuel
  induction fuel with
  | zero =>
    intro m hm
    have h0 : m = 0 := by omega
    subst h0
    rfl
  | succ fuel ih =>
    intro m hm
    match m with
    | 0 => rfl
    | m + 1 =>
      have hdiv : (m + 1) / 10 ≤ fuel := by
        have h1 : (m + 1) / 10 < m + 1 := Nat.div_lt_self (Nat.succ_pos m) (by omega)
        omega
      have hd : (m + 1) % 10 < 10 := Nat.mod_lt _ (by omega)
      rw [natCharsGo, charsVal_append_singleton, ih _ hdiv, digitChar_toNat _ hd]
      omega

theorem charsVal_natChars (n : Nat) : charsVal (natChars n) = n := by
  by_cases h : n = 0
  · subst h; rfl
  · rw [natChars, if_neg h]
    exact charsVal_natCharsGo n n le_rfl

theorem natChars_injective : Function.Injective natChars :=
  Function.LeftInverse.injective charsVal_natChars

theorem mem_natCharsGo_digit :
    ∀ (fuel m : Nat), ∀ c ∈ natCharsGo fuel m, 48 ≤ c.toNat ∧ c.toNat ≤ 57 := by
  intro fuel
  induction fuel with
  | zero =>
    intro m c hc
    match m with
    | 0 => simp [natCharsGo] at hc
    | m + 1 => simp [natCharsGo] at hc
  | succ fuel ih =>
    intro m c hc
    match m with
    | 0 => simp [natCharsGo] at hc
    | m + 1 =>
      rw [natCharsGo] at hc
      rcases List.mem_append.mp hc with hc | hc
      · exact ih _ c hc
      · have hd : (m + 1) % 10 < 10 := Nat.mod_lt _ (by omega)
        have hc2 : c = Nat.digitChar ((m + 1) % 10) := by simpa using hc
        subst hc2
        rw [digitChar_toNat _ hd]
        omega

theorem mem_natChars_digit (n : Nat) : ∀ c ∈ natChars n, 48 ≤ c.toNat ∧ c.toNat ≤ 57 := by
  intro c hc
  by_cases h : n = 0
  · subst h
    have hc2 : c = '0' := by simpa [natChars] using hc
    subst hc2
    constructor <;> decide
  · rw [natChars, if_neg h] at hc
    exact mem_natCharsGo_digit n n c hc

theorem natChars_ne_nil (n : Nat) : natChars n ≠ [] := by
  by_cases h : n = 0
  · subst h; simp [natChars]
  · rw [natChars, if_neg h]
    obtain ⟨m, rfl⟩ : ∃ m, n = m + 1 := ⟨n - 1, by omega⟩
    rw [natCharsGo]
    simp

theorem neg_not_mem_natChars (n : Nat) : '-' ∉ natChars n := by
  intro h
  have h2 := mem_natChars_digit n _ h
  have h3 : ('-' : Char).toNat = 45 := rfl
  omega

theorem intChars_injective : Function.Injective intChars := by
  intro a b h
  match a, b with
  | Int.ofNat m, Int.ofNat n =>
    exact congrArg Int.ofNat (natChars_injective (by simpa [intChars] using h))
  | Int.negSucc m, Int.negSucc n =>
    simp only [intChars, List.cons.injEq, true_and] at h
    have h2 := natChars_injective h
    have h3 : m = n := by omega
    exact congrArg Int.negSucc h3
  | Int.ofNat m, Int.negSucc n =>
    exfalso
    simp only [intChars] at h
    have h2 : '-' ∈ natChars m := by rw [h]; exact List.mem_cons_self _ _
    exact neg_not_mem_natChars m h2
  | Int.negSucc m, Int.ofNat n =>
    exfalso
    simp only [intChars] at h
    have h2 : '-' ∈ natChars n := by rw [← h]; exact List.mem_cons_self _ _
    exact neg_not_mem_natChars n h2

theorem comma_not_mem_intChars (z : Int) : ',' ∉ intChars z := by
  have hc : (',' : Char).toNat = 44 := rfl
  match z with
  | Int.ofNat n =>
    intro h
    have h2 := mem_natChars_digit n _ h
    omega
  | Int.negSucc n =>
    intro h
    rcases List.mem_cons.mp h with h | h
    · have h3 : (',' : Char).toNat = ('-' : Char).toNat := by rw [h]
      have h4 : ('-' : Char).toNat = 45 := rfl
      omega
    · have h2 := mem_natChars_digit (n + 1) _ h
      omega

theorem pipe_not_mem_intChars (z : Int) : '|' ∉ intChars z := by
  have hc : ('|' : Char).toNat = 124 := rfl
  match z with
  | Int.ofNat n =>
    intro h
    have h2 := mem_natChars_digit n _ h
    omega
  | Int.negSucc n =>
    intro h
    rcases List.mem_cons.mp h with h | h
    · have h3 : ('|' : Char).toNat = ('-' : Char).toNat := by rw [h]
      have h4 : ('-' : Char).toNat = 45 := rfl
      omega
    · have h2 := mem_natChars_digit (n + 1) _ h
      omega

theorem pipe_not_mem_keyOf (p : Pt) : '|' ∉ keyOf p := by
  intro h
  rw [keyOf] at h
  rcases List.mem_append.mp h with h | h
  · exact pipe_not_mem_intChars p.x h
  · rcases List.mem_cons.mp h with h | h
    · have h3 : ('|' : Char).toNat = (',' : Char).toNat := by rw [h]
      have h4 : (',' : Char).toNat = 44 := rfl
      have h5 : ('|' : Char).toNat = 124 := rfl
      omega
    · exact pipe_not_mem_intChars p.y h

theorem keyOf_ne_nil (p : Pt) : keyOf p ≠ [] := by
  rw [keyOf]
  intro h
  have h2 := List.append_eq_nil.mp h
  exact List.cons_ne_nil _ _ h2.2

theorem append_sep_inj (c : Char) : ∀ (xs ys u v : List Char), c ∉ xs → c ∉ ys →
    xs ++ c :: u = ys ++ c :: v → xs = ys ∧ u = v := by
  intro xs
  induction xs with
  | nil =>
    intro ys u v _ hy h
    cases ys with
    | nil => simpa using h
    | cons b bs =>
      exfalso
      simp only [List.nil_append, List.cons_append, List.cons.injEq] at h
      exact hy (by rw [h.1]; exact List.mem_cons_self _ _)
  | cons a as ih =>
    intro ys u v hx hy h
    cases ys with
    | nil =>
      exfalso
      simp only [List.cons_append, List.nil_append, List.cons.injEq] at h
      exact hx (by rw [h.1]; exact List.mem_cons_self _ _)
    | cons b bs =>
      simp only [List.cons_append, List.cons.injEq] at h
      obtain ⟨rfl, h2⟩ := h
      have hx2 : c ∉ as := fun hmem => hx (List.mem_cons_of_mem _ hmem)
      have hy2 : c ∉ bs := fun hmem => hy (List.mem_cons_of_mem _ hmem)
      obtain ⟨h3, h4⟩ := ih bs u v hx2 hy2 h2
      exact ⟨by rw [h3], h4⟩

theorem coordKey_injective : Function.Injective coordKey := by
  intro a b h
  obtain ⟨h1, h2⟩ := append_sep_inj ',' _ _ _ _ (comma_not_mem_intChars a.1)
    (comma_not_mem_intChars b.1) h
  exact Prod.ext (intChars_injective h1) (intChars_injective h2)

theorem keyOf_eq_coordKey (p : Pt) : keyOf p = coordKey (ptCoords p) := rfl

theorem joinSep_cons_cons (sep : Char) (a b : Str) (l : List Str) :
    joinSep [sep] (a :: b :: l) = a ++ sep :: joinSep [sep] (b :: l) := by
  show a ++ [sep] ++ joinSep [sep] (b :: l) = a ++ sep :: joinSep [sep] (b :: l)
  simp

theorem joinSep_inj (sep : Char) : ∀ (l1 l2 : List Str),
    (∀ s ∈ l1, s ≠ [] ∧ sep ∉ s) → (∀ s ∈ l2, s ≠ [] ∧ sep ∉ s) →
    joinSep [sep] l1 = joinSep [sep] l2 → l1 = l2 := by
  intro l1
  induction l1 with
  | nil =>
    intro l2 _ h2 h
    cases l2 with
    | nil => rfl
    | cons b bs =>
      exfalso
      cases bs with
      | nil => exact (h2 b (List.mem_cons_self _ _)).1 (by simpa [joinSep] using h.symm)
      | cons b2 bs2 =>
        rw [joinSep_cons_cons] at h
        have h3 := List.append_eq_nil.mp h.symm
        exact List.cons_ne_nil _ _ h3.2
  | cons a as ih =>
    intro l2 h1 h2 h
    cases l2 with
    | nil =>
      exfalso
      cases as with
      | nil => exact (h1 a (List.mem_cons_self _ _)).1 (by simpa [joinSep] using h)
      | cons a2 as2 =>
        rw [joinSep_cons_cons] at h
        have h3 := List.append_eq_nil.mp h
        exact List.cons_ne_nil _ _ h3.2
    | cons b bs =>
      cases as with
      | nil =>
        cases bs with
        | nil =>
          have hab : a = b := by simpa [joinSep] using h
          rw [hab]
        | cons b2 bs2 =>
          exfalso
          rw [joinSep_cons_cons] at h
          have hsep : sep ∈ a := by
            have ha : joinSep [sep] [a] = a := rfl
            rw [← ha, h]
            simp
          exact (h1 a (List.mem_cons_self _ _)).2 hsep
      | cons a2 as2 =>
        cases bs with
        | nil =>
          exfalso
          rw [joinSep_cons_cons] at h
          have hsep : sep ∈ b := by
            have hb : joinSep [sep] [b] = b := rfl
            rw [← hb, ← h]
            simp
          exact (h2 b (List.mem_cons_self _ _)).2 hsep
        | cons b2 bs2 =>
          rw [joinSep_cons_cons, joinSep_cons_cons] at h
          obtain ⟨hab, hrest⟩ := append_sep_inj sep _ _ _ _
            (h1 a (List.mem_cons_self _ _)).2 (h2 b (List.mem_cons_self _ _)).2 h
          have htail := ih (b2 :: bs2)
            (fun s hs => h1 s (List.mem_cons_of_mem _ hs))
            (fun s hs => h2 s (List.mem_cons_of_mem _ hs)) hrest
          rw [hab, htail]

theorem sortStrings_perm (l : List Str) : (sortStrings l).Perm l :=
  List.perm_insertionSort _ _

theorem sortStrings_sorted (l : List Str) : List.Sorted strLe (sortStrings l) :=
  List.sorted_insertionSort _ _

theorem sortStrings_eq_of_perm {l1 l2 : List Str} (h : l1.Perm l2) :
    sortStrings l1 = sortStrings l2 :=
  List.eq_of_perm_of_sorted ((sortStrings_perm l1).trans (h.trans (sortStrings_perm l2).symm))
    (sortStrings_sorted l1) (sortStrings_sorted l2)

theorem map_keyOf_eq_map_coordKey (l : List Pt) :
    l.map keyOf = (l.map ptCoords).map coordKey := by
  rw [List.map_map]
  rfl

/-- C5: the SquareKey normalization is order independent and injective on
corner coordinate multisets: two corner lists produce the same key exactly
when they carry the same coordinates with the same multiplicities in some
order.  In particular two squares with identical corner coordinate sets get
identical keys, and squares differing in a corner get different keys. -/
theorem normalizeSquareKey_eq_iff_perm (l1 l2 : List Pt) :
    normalizeSquareKey l1 = normalizeSquareKey l2 ↔
      (l1.map ptCoords).Perm (l2.map ptCoords) := by
  constructor
  · intro h
    have hgood : ∀ l : List Pt, ∀ s ∈ sortStrings (l.map keyOf), s ≠ [] ∧ '|' ∉ s := by
      intro l s hs
      have hs2 : s ∈ l.map keyOf := (sortStrings_perm _).mem_iff.mp hs
      obtain ⟨p, _, rfl⟩ := List.mem_map.mp hs2
      exact ⟨keyOf_ne_nil p, pipe_not_mem_keyOf p⟩
    have hsort : sortStrings (l1.map keyOf) = sortStrings (l2.map keyOf) :=
      joinSep_inj '|' _ _ (hgood l1) (hgood l2) h
    have hperm : (l1.map keyOf).Perm (l2.map keyOf) :=
      ((sortStrings_perm _).symm.trans (hsort ▸ sortStrings_perm (l2.map keyOf)))
    rw [map_keyOf_eq_map_coordKey, map_keyOf_eq_map_coordKey] at hperm
    rw [List.perm_iff_count] at hperm ⊢
    intro c
    have hc := hperm (coordKey c)
    rwa [List.count_map_of_injective _ _ coordKey_injective,
      List.count_map_of_injective _ _ coordKey_injective] at hc
  · intro h
    have hperm : (l1.map keyOf).Perm (l2.map keyOf) := by
      rw [map_keyOf_eq_map_coordKey, map_keyOf_eq_map_coordKey]
      exact h.map coordKey
    rw [normalizeSquareKey, normalizeSquareKey, sortStrings_eq_of_perm hperm]

theorem list_map_range_sum (f : Nat → Nat) :
    ∀ n, ((List.range n).map f).sum = ∑ i ∈ Finset.range n, f i := by
  intro n
  induction n with
  | zero => simp
  | succ n ih =>
    rw [List.range_succ, List.map_append, List.sum_append, Finset.sum_range_succ, ih]
    simp

theorem pairs_length (points : List Pt) :
    (pairs points).length = points.length * (points.length - 1) / 2 := by
  unfold pairs
  rw [List.length_flatMap]
  have h1 : (List.map (List.length ∘ fun i =>
      (List.range' (i + 1) (points.length - (i + 1))).map (fun j => (⟨i, j⟩ : Pair)))
      (List.range points.length)) =
      (List.range points.length).map (fun i => points.length - (i + 1)) := by
    apply List.map_congr_left
    intro i _
    simp [List.length_range']
  rw [h1, list_map_range_sum]
  have h2 : ∑ i ∈ Finset.range points.length, (points.length - (i + 1)) =
      ∑ i ∈ Finset.range points.length, (points.length - 1 - i) := by
    apply Finset.sum_congr rfl
    intro i _
    omega
  rw [h2, Finset.sum_range_reflect (fun j => j) points.length, Finset.sum_range_id]

theorem mem_pairs (points : List Pt) (p : Pair) :
    p ∈ pairs points ↔ p.i < p.j ∧ p.j < points.length := by
  unfold pairs
  simp only [List.mem_flatMap, List.mem_map, List.mem_range, List.mem_range'_1]
  constructor
  · rintro ⟨i, hi, j, ⟨hj1, hj2⟩, rfl⟩
    constructor <;> simp <;> omega
  · rintro ⟨h1, h2⟩
    exact ⟨p.i, by omega, p.j, ⟨by omega, by omega⟩, rfl⟩

theorem pairs_pairwise (points : List Pt) : (pairs points).Pairwise pairLexLt := by
  unfold pairs
  rw [List.flatMap_def, List.pairwise_flatten]
  constructor
  · intro l hl
    obtain ⟨i, _, rfl⟩ := List.mem_map.mp hl
    rw [List.pairwise_map]
    apply List.Pairwise.imp ?_ (List.pairwise_lt_range' _ _ 1)
    intro j1 j2 hj
    exact Or.inr ⟨rfl, hj⟩
  · rw [List.pairwise_map]
    apply List.Pairwise.imp ?_ (List.pairwise_lt_range _)
    intro i1 i2 hi x hx y hy
    obtain ⟨j1, _, rfl⟩ := List.mem_map.mp hx
    obtain ⟨j2, _, rfl⟩ := List.mem_map.mp hy
    exact Or.inl hi

/-- C7: the pair enumeration over a point sequence of length n has exactly
n(n-1)/2 elements, each pair satisfies i before j before n, there are no
duplicates, and the list is strictly increasing in the lexicographic order
on (i, j); as a Lean function of the point list it is pure and
deterministic by construction. -/
theorem pairs_enumeration_spec (points : List Pt) :
    (pairs points).length = points.length * (points.length - 1) / 2 ∧
    ((pairs points).all fun p => decide (p.i < p.j) && decide (p.j < points.length)) = true ∧
    (pairs points).Nodup ∧
    (pairs points).Pairwise pairLexLt := by
  refine ⟨pairs_length points, ?_, ?_, pairs_pairwise points⟩
  · rw [List.all_eq_true]
    intro p hp
    have h := (mem_pairs points p).mp hp
    simp [h.1, h.2]
  · apply List.Pairwise.imp ?_ (pairs_pairwise points)
    intro p q hpq hne
    subst hne
    rcases hpq with h | ⟨_, h⟩ <;> omega

theorem addKey_fst (carry : Finset Str) (newly : List Str) (key : Str) (ok : Bool) :
    (addKey carry newly key ok).1 = carry ∪ (if ok then {key} else ∅) := by
  unfold addKey
  split_ifs with h1 h2
  · exact (Finset.union_eq_left.mpr (Finset.singleton_subset_iff.mpr h2)).symm
  · rw [Finset.union_comm, ← Finset.insert_eq]
  · simp

theorem addKey_snd_toFinset (carry : Finset Str) (newly : List Str) (key : Str) (ok : Bool) :
    (addKey carry newly key ok).2.toFinset =
      newly.toFinset ∪ ((if ok then {key} else ∅) \ carry) := by
  unfold addKey
  split_ifs with h1 h2
  · have hempty : ({key} : Finset Str) \ carry = ∅ :=
      Finset.sdiff_eq_empty_iff_subset.mpr (Finset.singleton_subset_iff.mpr h2)
    rw [hempty]
    simp
  · have hfull : ({key} : Finset Str) \ carry = {key} := by
      ext a
      simp only [Finset.mem_sdiff, Finset.mem_singleton]
      exact ⟨fun x => x.1, fun x => ⟨x, by rw [x]; exact h2⟩⟩
    rw [hfull, List.toFinset_append]
    simp
  · simp

theorem addKey_addKey_snd_length (carry : Finset Str) (k1 k2 : Str) (b1 b2 : Bool) :
    (addKey (addKey carry [] k1 b1).1 (addKey carry [] k1 b1).2 k2 b2).2.length ≤ 2 := by
  unfold addKey
  split_ifs <;> simp

theorem computeStepNoRewind_snd (points : List Pt) (mem : Finset Str) (k : Nat)
    (carry : Finset Str) :
    (computeStepNoRewind points mem k carry).2 = carry ∪ confirmedKeys points mem k := by
  unfold confirmedKeys computeStepNoRewind
  simp only [addKey_fst, addKey_snd_toFinset, List.toFinset_nil]
  ext a
  simp only [Finset.mem_union, Finset.empty_union, Finset.mem_sdiff, Finset.not_mem_empty,
    not_false_iff, and_true]
  tauto

theorem computeStepNoRewind_newly (points : List Pt) (mem : Finset Str) (k : Nat)
    (carry : Finset Str) :
    (computeStepNoRewind points mem k carry).1.newlyAddedSquares.toFinset =
      confirmedKeys points mem k \ carry := by
  unfold confirmedKeys computeStepNoRewind
  simp only [addKey_fst, addKey_snd_toFinset, List.toFinset_nil]
  ext a
  simp only [Finset.mem_union, Finset.empty_union, Finset.mem_sdiff, Finset.not_mem_empty,
    not_false_iff, and_true]
  tauto

theorem computeStepNoRewind_uniqueCount (points : List Pt) (mem : Finset Str) (k : Nat)
    (carry : Finset Str) :
    (computeStepNoRewind points mem k carry).1.uniqueCount =
      (computeStepNoRewind points mem k carry).2.card := rfl

theorem computeStep_of_rewind (points : List Pt) (mem : Finset Str) (k : Nat)
    (carry : Finset Str) (seen : Int) (h : (k : Int) ≤ seen) :
    computeStep points mem k carry seen =
      ({ (computeStepNoRewind points mem k carry).1 with
          uniqueCount := (rebuildUpTo points mem k).card },
        rebuildUpTo points mem k) := by
  unfold computeStep
  rw [if_pos h]

theorem computeStep_of_forward (points : List Pt) (mem : Finset Str) (k : Nat)
    (carry : Finset Str) (seen : Int) (h : ¬ (k : Int) ≤ seen) :
    computeStep points mem k carry seen = computeStepNoRewind points mem k carry := by
  unfold computeStep
  rw [if_neg h]

/-- C10: computeStep terminates on every input because the rebuild branch
replays earlier steps through computeStepOnce, which passes an
alreadySeenIndex of -1, so the replayed evaluation never enters the rebuild
branch again: computeStepOnce is exactly the rewind-free step evaluation on
an empty registry, and the recursion never goes deeper. -/
theorem computeStepOnce_never_rebuilds (points : List Pt) (mem : Finset Str) (k : Nat) :
    computeStepOnce points mem k = computeStepNoRewind points mem k ∅ := by
  unfold computeStepOnce
  apply computeStep_of_forward
  omega

theorem forwardState_succ (points : List Pt) (mem : Finset Str) (k : Nat) :
    forwardState points mem (k + 1) =
      (computeStepNoRewind points mem k (forwardState points mem k)).2 := by
  rw [forwardState, computeStep_of_forward _ _ _ _ _ (by omega)]

theorem forwardState_eq_rebuild (points : List Pt) (mem : Finset Str) (k : Nat) :
    forwardState points mem (k + 1) = rebuildUpTo points mem k := by
  induction k with
  | zero =>
    rw [forwardState_succ, computeStepNoRewind_snd]
    show (∅ : Finset Str) ∪ confirmedKeys points mem 0 = rebuildUpTo points mem 0
    rw [rebuildUpTo, show List.range (0 + 1) = [0] from rfl, List.foldl_cons, List.foldl_nil]
    rfl
  | succ k ih =>
    rw [forwardState_succ, computeStepNoRewind_snd, ih]
    unfold rebuildUpTo
    conv_rhs => rw [List.range_succ]
    rw [List.foldl_append, List.foldl_cons, List.foldl_nil]
    rfl

theorem forwardCount_eq_card (points : List Pt) (mem : Finset Str) (k : Nat) :
    forwardCount points mem k = (forwardState points mem (k + 1)).card := by
  unfold forwardCount
  rw [computeStep_of_forward _ _ _ _ _ (by omega), computeStepNoRewind_uniqueCount,
    ← forwardState_succ]

/-- C2: evaluating a previously visited step k (k at or below the high-water
mark) with any carried registry and any high-water mark yields the
uniqueCount that a pure forward run, from an empty registry through steps
0..k in order, reports at step k. -/
theorem rewind_uniqueCount_eq_forward (points : List Pt) (mem : Finset Str) (k : Nat)
    (carry : Finset Str) (seen : Int) (h : (k : Int) ≤ seen) :
    (computeStep points mem k carry seen).1.uniqueCount = forwardCount points mem k := by
  rw [computeStep_of_rewind _ _ _ _ _ h]
  simp only []
  rw [forwardCount_eq_card, forwardState_eq_rebuild]

/-- Witness for C2 at a concrete input: step 0 of the four-point square
scenario, revisited with high-water mark 3 and a junk registry. -/
theorem rewind_uniqueCount_eq_forward_witness :
    ((0 : Nat) : Int) ≤ 3 ∧
      (computeStep unitSquarePts (membership unitSquarePts) 0 {['z']} 3).1.uniqueCount =
        forwardCount unitSquarePts (membership unitSquarePts) 0 :=
  ⟨by decide, rewind_uniqueCount_eq_forward unitSquarePts (membership unitSquarePts) 0
    {['z']} 3 (by decide)⟩

/-- C8 amended: newlyAddedSquares contains exactly the keys confirmed at
step k that are absent from the registry state actually passed in (the one
accumulated under the real play and rewind history), not from the registry a
pure forward run would have before step k; it also has at most two
entries. -/
theorem newly_added_eq_confirmed_sdiff_carry (points : List Pt) (mem : Finset Str)
    (k : Nat) (carry : Finset Str) (seen : Int) :
    (computeStep points mem k carry seen).1.newlyAddedSquares.toFinset =
        confirmedKeys points mem k \ carry ∧
      (computeStep points mem k carry seen).1.newlyAddedSquares.length ≤ 2 := by
  have hfields : (computeStep points mem k carry seen).1.newlyAddedSquares =
      (computeStepNoRewind points mem k carry).1.newlyAddedSquares := by
    unfold computeStep
    split <;> simp
  rw [hfields]
  constructor
  · exact computeStepNoRewind_newly points mem k carry
  · dsimp only [computeStepNoRewind]
    exact addKey_addKey_snd_length carry _ _ _ _

/-- C8 counterexample: at step 0 of the four-point square scenario, after
advancing once and rewinding back (registry = forward registry after step 0,
high-water mark 1), the code reports no newly added squares, although the
keys confirmed at step 0 minus the forward registry before step 0 (which is
empty) are nonempty — so the newly added list is not determined by the pure
forward baseline of steps 0..k-1. -/
theorem newly_added_depends_on_history :
    (computeStep unitSquarePts (membership unitSquarePts) 0
        (forwardState unitSquarePts (membership unitSquarePts) 1) 1).1.newlyAddedSquares
        = [] ∧
      confirmedKeys unitSquarePts (membership unitSquarePts) 0 ≠ ∅ ∧
      forwardState unitSquarePts (membership unitSquarePts) 0 = ∅ := by
  refine ⟨by decide, by decide, rfl⟩

/-- C1: for every point list, membership set, step index, carried registry
and high-water mark, the detector step computes the edge vector
(dx, dy) = (B.x - A.x, B.y - A.y), the left-rotation candidates
C = (A.x - dy, A.y + dx) and D = (B.x - dy, B.y + dx), the right-rotation
candidates C2 = (A.x + dy, A.y - dx) and D2 = (B.x + dy, B.y - dx), and
leftOK holds exactly when both C and D are in the membership set, rightOK
exactly when both C2 and D2 are. -/
theorem detector_rotation_and_membership (points : List Pt) (mem : Finset Str) (k : Nat)
    (carry : Finset Str) (seen : Int) :
    let p := (pairs points).getD k ⟨0, 0⟩
    let A := points.getD p.i dfltPt
    let B := points.getD p.j dfltPt
    let dx := B.x - A.x
    let dy := B.y - A.y
    let r := (computeStep points mem k carry seen).1
    r.A = A ∧ r.B = B ∧ r.dx = dx ∧ r.dy = dy ∧
    r.ldx = -dy ∧ r.ldy = dx ∧ r.rdx = dy ∧ r.rdy = -dx ∧
    r.C = ⟨A.x - dy, A.y + dx, "C"⟩ ∧ r.D = ⟨B.x - dy, B.y + dx, "D"⟩ ∧
    r.C2 = ⟨A.x + dy, A.y - dx, "C2"⟩ ∧ r.D2 = ⟨B.x + dy, B.y - dx, "D2"⟩ ∧
    (r.leftOK = true ↔ keyOf r.C ∈ mem ∧ keyOf r.D ∈ mem) ∧
    (r.rightOK = true ↔ keyOf r.C2 ∈ mem ∧ keyOf r.D2 ∈ mem) := by
  dsimp only
  unfold computeStep
  split <;>
    refine ⟨rfl, rfl, rfl, rfl, rfl, rfl, rfl, rfl, rfl, rfl, rfl, rfl, ?_, ?_⟩ <;>
    · dsimp only [computeStepNoRewind]
      rw [Bool.and_eq_true, decide_eq_true_iff, decide_eq_true_iff]

/-- C3: at a pair of coinciding points the code does not skip — the rotated
candidates coincide with the member point itself, so the detector reports
leftOK and rightOK true, a degenerate square key is inserted, and the unique
count rises to 1, against the specification, which requires no square for a
zero-length edge (the Java reference block in the same file carries the
skip; the executed code does not). -/
theorem degenerate_pair_eval :
    (computeStep dupPoints (membership dupPoints) 0 ∅ (-1)).1.dx = 0 ∧
    (computeStep dupPoints (membership dupPoints) 0 ∅ (-1)).1.dy = 0 ∧
    (computeStep dupPoints (membership dupPoints) 0 ∅ (-1)).1.leftOK = true ∧
    (computeStep dupPoints (membership dupPoints) 0 ∅ (-1)).1.rightOK = true ∧
    (computeStep dupPoints (membership dupPoints) 0 ∅ (-1)).1.newlyAddedSquares ≠ [] ∧
    (computeStep dupPoints (membership dupPoints) 0 ∅ (-1)).1.uniqueCount = 1 := by
  exact ⟨rfl, rfl, by decide, by decide, by decide, by decide⟩

/-- C4: the forward uniqueCount sequence is non-decreasing (proved in
general), but the final count does not always equal the number of distinct
squares with all corners in the point set: with a duplicated point the
single degenerate pair is counted as a square, so the run ends at 1 while
the true number of squares is 0. -/
theorem forward_monotone_and_dup_mismatch :
    (∀ (points : List Pt) (mem : Finset Str) (k : Nat),
        forwardCount points mem k ≤ forwardCount points mem (k + 1)) ∧
    forwardCount dupPoints (membership dupPoints) 0 = 1 ∧
    trueSquareCount dupPoints = 0 := by
  refine ⟨?_, by decide, by decide⟩
  intro points mem k
  rw [forwardCount_eq_card, forwardCount_eq_card]
  apply Finset.card_le_card
  rw [forwardState_succ points mem (k + 1), computeStepNoRewind_snd]
  exact Finset.subset_union_left

/-- C6: with fewer than two points the pair sequence is empty, but the
stepping operations are not no-ops: nextStep fails (the source destructures
pairs[step], which is undefined, and throws) and prevStep fails (the source
computes a step index modulo zero, which is NaN); both are modelled as
none. -/
theorem empty_pairs_stepping_eval :
    pairs ([] : List Pt) = [] ∧ pairs [⟨1, 1, "P0"⟩] = [] ∧
    nextStep [] initialState = none ∧ prevStep [] initialState = none ∧
    nextStep [⟨1, 1, "P0"⟩] initialState = none ∧
    prevStep [⟨1, 1, "P0"⟩] initialState = none :=
  ⟨rfl, rfl, rfl, rfl, rfl, rfl⟩

/-- C9: reset stops playback, returns to step 0, clears the unique-square
registry and sets the high-water mark to -1, leaving the speed alone; the
membership set is not stored state but is derived from the point sequence
as a pure function, so it can never go stale separately from it. -/
theorem reset_clears_tracker_state (st : AppState) :
    (reset st).playing = false ∧ (reset st).step = 0 ∧
    (reset st).uniqueSquares = ∅ ∧ (reset st).seenUpTo = -1 ∧
    (reset st).speed = st.speed ∧
    ∀ points : List Pt, membership points = (points.map keyOf).toFinset :=
  ⟨rfl, rfl, rfl, rfl, rfl, fun _ => rfl⟩

end SquareFinder
